import Mathlib

/-!
Verification of the ZIP-code classifier of the Loot-Scrapes repository
(`src/vendor_intake/utils/zip_state_mapper.py`, class `ZipCodeMapper`).

The class keeps one piece of state, the dict `zip_to_state_map`, modelled here
as a lookup function `Db`.  The regular expressions of the source are modelled
over ASCII characters (Python's `re` in Unicode mode additionally treats some
non-ASCII codepoints as digits and word characters; no claim depends on those).
-/

set_option autoImplicit false

namespace ZipStateMapper

/-- `zip_to_state_map` as a lookup function: a key's state, or `none` when the
key is absent from the dict. -/
abbrev Db := String → Option String

/-- The freshly constructed, still empty `zip_to_state_map`. -/
def emptyDb : Db := fun _ => none

/-- Python regex `\d`, ASCII model. -/
def isDigitChar (c : Char) : Bool := c.isDigit

/-- Python regex word character `\w` (letters, digits, underscore), ASCII model. -/
def isWordChar (c : Char) : Bool := c.isAlphanum || c == '_'

/-- Consume exactly `k` digit characters from the front of the list and return
the remainder; `none` when fewer than `k` digits are available. -/
def takeDigits : Nat → List Char → Option (List Char)
  | 0, cs => some cs
  | _ + 1, [] => none
  | k + 1, c :: cs => if isDigitChar c then takeDigits k cs else none

/-- Python regex `$` (without `re.MULTILINE`): it matches at the very end of
the string and also just before a newline that is the last character.
`dollarAt rest` says whether `$` matches when `rest` remains of the input. -/
def dollarAt : List Char → Bool
  | [] => true
  | [c] => c == '\n'
  | _ => false

/-- The anchored matcher after an initial `'-'` was consumed: try the greedy
group `-\d{4}` followed by `$`; on failure backtrack to the bare five digits,
whose `$` must then match right before the `'-'`. -/
def matchAfterHyphen (rest2 : List Char) : Bool :=
  match takeDigits 4 rest2 with
  | some rest3 => dollarAt rest3 || dollarAt ('-' :: rest2)
  | none => dollarAt ('-' :: rest2)

/-- The anchored matcher after the five digits were consumed. -/
def matchAfter5 : List Char → Bool
  | [] => dollarAt []
  | c :: rest2 => if c == '-' then matchAfterHyphen rest2 else dollarAt (c :: rest2)

/-- `re.match(r'^\d{5}(?:-\d{4})?$', s)` succeeds, over the characters of `s`.
The optional group is greedy: it is tried first and the matcher backtracks to
the bare five digits when the rest of the pattern fails afterwards. -/
def matchZipAnchored (cs : List Char) : Bool :=
  match takeDigits 5 cs with
  | none => false
  | some rest => matchAfter5 rest

/-- The numeric value of a decimal digit string. -/
def digitsToNat (cs : List Char) : Nat :=
  cs.foldl (fun a c => 10 * a + (c.toNat - '0'.toNat)) 0

/-- Python `int(s)` restricted to plain decimal digit strings, the only shape
it is applied to here; on anything else it is modelled as the `ValueError`
branch (`none`). -/
def parseNat? (s : String) : Option Nat :=
  if !s.data.isEmpty && s.data.all isDigitChar then some (digitsToNat s.data)
  else none

/-- `_is_in_valid_range`: `int(zip_base)` then `0 < zip_num < 100000`, with a
`ValueError` giving `False`.  The method is only ever applied to five-digit
prefixes of regex-validated input, where Python's `int` and `parseNat?`
agree. -/
def is_in_valid_range (zip_base : String) : Bool :=
  match parseNat? zip_base with
  | some n => decide (0 < n) && decide (n < 100000)
  | none => false

/-- `zip_code[:5]`: the first five characters. -/
def base5 (s : String) : String := (s.data.take 5).asString

/-- `ZipCodeMapper.validate_zip_code`. -/
def validate_zip_code (db : Db) (zip_code : String) : Bool :=
  if matchZipAnchored zip_code.data then
    (db (base5 zip_code)).isSome || is_in_valid_range (base5 zip_code)
  else false

/-- `zip_code.split('-')[0]`: everything before the first hyphen (the whole
string when there is none). -/
def base_before_hyphen (s : String) : String :=
  (s.data.takeWhile (fun c => !(c == '-'))).asString

/-- `ZipCodeMapper.get_state_for_zip`. -/
def get_state_for_zip (db : Db) (zip_code : String) : Option String :=
  db (base_before_hyphen zip_code)

/-- `\b` holds in front of `rest` for a position whose following character is a
word character: the preceding character must not be one.  Used for the closing
boundary of the findall pattern, where `rest` follows a digit. -/
def boundaryAt : List Char → Bool
  | [] => true
  | c :: _ => !isWordChar c

/-- The findall matcher after an initial `'-'`: the greedy group `-\d{4}`
followed by the closing `\b`; when the group matches but the boundary fails,
or when the group fails, backtrack to the bare five digits, whose closing
`\b` holds because the next character is `'-'`. -/
def zipMatchAfterHyphen (rest2 : List Char) : Option Bool :=
  match takeDigits 4 rest2 with
  | some rest3 => if boundaryAt rest3 then some true else some false
  | none => some false

/-- The findall matcher after the five digits were consumed: the optional
ZIP+4 group when a hyphen follows, otherwise the closing `\b`. -/
def zipMatchAfter5 : List Char → Option Bool
  | [] => some false
  | c :: rest2 =>
    if c == '-' then zipMatchAfterHyphen rest2
    else if boundaryAt (c :: rest2) then some false else none

/-- One attempt of `\b\d{5}(?:-\d{4})?\b` anchored at the current position.
`prevIsWord` says whether the character just before the position is a word
character (the leading `\b` holds exactly when it is not, because the first
pattern character is a digit).  Returns `some true` for a ten-character match
(with the ZIP+4 group), `some false` for a five-character one. -/
def zipMatchAt (prevIsWord : Bool) (cs : List Char) : Option Bool :=
  if prevIsWord then none
  else
    match takeDigits 5 cs with
    | none => none
    | some rest => zipMatchAfter5 rest

/-- `re.findall(r'\b\d{5}(?:-\d{4})?\b', text)`: scan left to right, emit each
match and resume right after it (the character before the resume position is
then a digit, hence a word character).  The first argument is recursion fuel:
every step shortens the text, so any fuel beyond the text's length is enough
and the `0` branch is never reached from `findall_zip`
(`findallZipAux_fuel_irrelevant`). -/
def findallZipAux : Nat → Bool → List Char → List String
  | 0, _, _ => []
  | _ + 1, _, [] => []
  | fuel + 1, prevIsWord, c :: cs =>
    match zipMatchAt prevIsWord (c :: cs) with
    | some true => ((c :: cs).take 10).asString :: findallZipAux fuel true ((c :: cs).drop 10)
    | some false => ((c :: cs).take 5).asString :: findallZipAux fuel true ((c :: cs).drop 5)
    | none => findallZipAux fuel (isWordChar c) cs

/-- First parsing pass of `process_zip_codes` on string input.  At the start of
the string there is no preceding character, so the leading `\b` reduces to the
next character being a word character: `prevIsWord = false`. -/
def findall_zip (s : String) : List String :=
  findallZipAux (s.data.length + 1) false s.data

/-- Python regex `\s`, ASCII model. -/
def isPySpace (c : Char) : Bool :=
  c == ' ' || c == '\t' || c == '\n' || c == '\r' || c == '\x0b' || c == '\x0c'

/-- A character of the class `[,;\s\n]` used by the fallback splitter. -/
def isSep (c : Char) : Bool := c == ',' || c == ';' || isPySpace c || c == '\n'

/-- `re.split(r'[,;\s\n]+', text)`: the pieces of the text between maximal
separator runs, with an empty piece at an end of the list when the text starts
or ends with a separator.  The head of a non-empty `dropWhile (!isSep ·)`
result is a separator, so the recursion skips it and the rest of its run.
The first argument is recursion fuel: every step shortens the text, so any
fuel beyond the text's length is enough and the `0` branch is never reached
from `re_split_seps` (`re_split_sepsAux_fuel_irrelevant`). -/
def re_split_sepsAux : Nat → List Char → List (List Char)
  | 0, _ => []
  | fuel + 1, cs =>
    match cs.dropWhile (fun c => !isSep c) with
    | [] => [cs.takeWhile (fun c => !isSep c)]
    | _ :: rt =>
      cs.takeWhile (fun c => !isSep c) :: re_split_sepsAux fuel (rt.dropWhile isSep)

def re_split_seps (cs : List Char) : List (List Char) :=
  re_split_sepsAux (cs.length + 1) cs

/-- Python `str.strip()`: remove leading and trailing whitespace characters. -/
def stripChars (cs : List Char) : List Char :=
  ((cs.dropWhile isPySpace).reverse.dropWhile isPySpace).reverse

/-- Python `str.isdigit()` on the stripped token, ASCII model: non-empty and
all digit characters. -/
def isDigitToken (cs : List Char) : Bool := !cs.isEmpty && cs.all isDigitChar

/-- Second parsing pass of `process_zip_codes` on string input:
`[z.strip() for z in re.split(r'[,;\s\n]+', text) if z.strip() and z.strip().isdigit()]`. -/
def fallback_tokens (s : String) : List String :=
  (re_split_seps s.data).filterMap (fun z =>
    if isDigitToken (stripChars z) then some (stripChars z).asString else none)

/-- The candidate list a string input is parsed into: the findall pass, and the
fallback pass exactly when the findall pass yields nothing. -/
def extract_candidates (s : String) : List String :=
  let zip_list := findall_zip s
  if zip_list.isEmpty then fallback_tokens s else zip_list

/-- The grouping built by `process_zip_codes`: a Python dict in insertion
order, from state abbreviation to the list of ZIPs filed under it. -/
abbrev Grouping := List (String × List String)

/-- `result.get(st)` on the insertion-ordered dict. -/
def groupLookup (g : Grouping) (st : String) : Option (List String) :=
  (g.find? (fun p => p.1 == st)).map (fun p => p.2)

/-- `if state not in result: result[state] = []` followed by
`result[state].append(zip_code)`. -/
def addToGroup (g : Grouping) (st z : String) : Grouping :=
  if g.any (fun p => p.1 == st) then
    g.map (fun p => if p.1 == st then (p.1, p.2 ++ [z]) else p)
  else g ++ [(st, [z])]

/-- The body of the per-ZIP loop of `process_zip_codes`; the second component
is the `invalid_zips` accumulator.  `if state:` is false both for `None` and
for an empty string, Python truthiness. -/
def processStep (db : Db) (acc : Grouping × List String) (z : String) :
    Grouping × List String :=
  if validate_zip_code db z then
    match get_state_for_zip db z with
    | some st =>
      if st == "" then (acc.1, acc.2 ++ [z]) else (addToGroup acc.1 st z, acc.2)
    | none => (acc.1, acc.2 ++ [z])
  else (acc.1, acc.2 ++ [z])

/-- The per-ZIP loop over an already extracted candidate list. -/
def process_zip_list (db : Db) (zs : List String) : Grouping × List String :=
  zs.foldl (processStep db) ([], [])

/-- The two run-time shapes of the `zip_codes` argument. -/
inductive ZipInput where
  | str (s : String)
  | list (zs : List String)

/-- The candidate list `zip_list` the loop runs over: parsed from a string
input, the list itself otherwise (the fallback pass is guarded by
`isinstance(zip_codes, str)` and never applies to list input). -/
def candidates_of : ZipInput → List String
  | .str s => extract_candidates s
  | .list zs => zs

/-- `ZipCodeMapper.process_zip_codes`: its return value (the invalid list is
only logged). -/
def process_zip_codes (db : Db) (input : ZipInput) : Grouping :=
  (process_zip_list db (candidates_of input)).1

/-- `validate_zip_code` with the instance state threaded explicitly: the
method only reads `zip_to_state_map`, so it returns the state unchanged. -/
def validate_zip_code_st (db : Db) (z : String) : Db × Bool :=
  (db, validate_zip_code db z)

/-- `get_state_for_zip` with the instance state threaded explicitly. -/
def get_state_for_zip_st (db : Db) (z : String) : Db × Option String :=
  (db, get_state_for_zip db z)

/-- The per-ZIP loop body with the instance state threaded through each
method call, mirroring the sequence of attribute accesses in the source. -/
def processStep_st (acc : Db × Grouping × List String) (z : String) :
    Db × Grouping × List String :=
  if (validate_zip_code_st acc.1 z).2 then
    match (get_state_for_zip_st (validate_zip_code_st acc.1 z).1 z).2 with
    | some st =>
      if st == "" then
        ((get_state_for_zip_st (validate_zip_code_st acc.1 z).1 z).1,
          acc.2.1, acc.2.2 ++ [z])
      else
        ((get_state_for_zip_st (validate_zip_code_st acc.1 z).1 z).1,
          addToGroup acc.2.1 st z, acc.2.2)
    | none =>
      ((get_state_for_zip_st (validate_zip_code_st acc.1 z).1 z).1,
        acc.2.1, acc.2.2 ++ [z])
  else ((validate_zip_code_st acc.1 z).1, acc.2.1, acc.2.2 ++ [z])

/-- `process_zip_codes` with the instance state threaded explicitly: the
final state alongside the returned grouping. -/
def process_zip_codes_st (db : Db) (input : ZipInput) : Db × Grouping :=
  (((candidates_of input).foldl processStep_st (db, [], [])).1,
    ((candidates_of input).foldl processStep_st (db, [], [])).2.1)

/-- The `state_names` dict of `states_to_urls`: all 50 states plus DC. -/
def state_names : List (String × String) :=
  [("AL", "alabama"), ("AK", "alaska"), ("AZ", "arizona"), ("AR", "arkansas"),
   ("CA", "california"), ("CO", "colorado"), ("CT", "connecticut"),
   ("DE", "delaware"), ("FL", "florida"), ("GA", "georgia"), ("HI", "hawaii"),
   ("ID", "idaho"), ("IL", "illinois"), ("IN", "indiana"), ("IA", "iowa"),
   ("KS", "kansas"), ("KY", "kentucky"), ("LA", "louisiana"), ("ME", "maine"),
   ("MD", "maryland"), ("MA", "massachusetts"), ("MI", "michigan"),
   ("MN", "minnesota"), ("MS", "mississippi"), ("MO", "missouri"),
   ("MT", "montana"), ("NE", "nebraska"), ("NV", "nevada"),
   ("NH", "new-hampshire"), ("NJ", "new-jersey"), ("NM", "new-mexico"),
   ("NY", "new-york"), ("NC", "north-carolina"), ("ND", "north-dakota"),
   ("OH", "ohio"), ("OK", "oklahoma"), ("OR", "oregon"),
   ("PA", "pennsylvania"), ("RI", "rhode-island"), ("SC", "south-carolina"),
   ("SD", "south-dakota"), ("TN", "tennessee"), ("TX", "texas"),
   ("UT", "utah"), ("VT", "vermont"), ("VA", "virginia"),
   ("WA", "washington"), ("WV", "west-virginia"), ("WI", "wisconsin"),
   ("WY", "wyoming"), ("DC", "district-of-columbia")]

/-- `state_names.get(st)` — `st in state_names` is its `isSome`. -/
def state_names_find (st : String) : Option String :=
  (state_names.find? (fun p => p.1 == st)).map (fun p => p.2)

/-- The default of the `base_url` parameter of `states_to_urls`. -/
def default_base_url : String := "https://potadvisor.com"

/-- The f-string `f"{base_url}/states/{state_name}/{state_name}-dispensaries/"`. -/
def dispensaries_url (base_url state_name : String) : String :=
  base_url ++ "/states/" ++ state_name ++ "/" ++ state_name ++ "-dispensaries/"

/-- `ZipCodeMapper.states_to_urls`.  The Python argument is a set; its
iteration order is modelled by the list order, which no claim depends on. -/
def states_to_urls (states : List String) (base_url : String) :
    List (String × String × String) :=
  states.foldl (fun urls st =>
    match state_names_find st with
    | some name => urls ++ [(st, dispensaries_url base_url name, name)]
    | none => urls) []

/-- `urls.get(st)` on the dict built by `states_to_urls`. -/
def urlLookup (urls : List (String × String × String)) (st : String) :
    Option (String × String) :=
  (urls.find? (fun p => p.1 == st)).map (fun p => p.2)

/-- The entry `states_to_urls` builds for a state code, when the code is
known. -/
def urlEntry (base_url s : String) : Option (String × String) :=
  (state_names_find s).map (fun n => (dispensaries_url base_url n, n))

/-- The `state_ranges` dict of `_create_initial_mapping`: inclusive numeric
ZIP ranges for a partial subset of states. -/
def state_ranges : List (String × Nat × Nat) :=
  [("AL", 35000, 36999), ("AK", 99500, 99999), ("AZ", 85000, 86999),
   ("AR", 71600, 72999), ("WA", 98000, 99499)]

/-- `_create_initial_mapping` as a lookup function.  The source dict's keys
are `str(n)` for every `n` of each inclusive range; since all range bounds lie
in `[35000, 99999]`, those keys are exactly the five-character decimal digit
strings whose numeric value falls in one of the (pairwise disjoint) ranges. -/
def create_initial_mapping_find (z : String) : Option String :=
  if z.length = 5 && z.data.all isDigitChar then
    (state_ranges.find? (fun p =>
      decide (p.2.1 ≤ digitsToNat z.data) && decide (digitsToNat z.data ≤ p.2.2))).map
      (fun p => p.1)
  else none

/-- Outcome of one `_load_from_csv` call on an existing file.  A CSV cell that
is missing or empty is modelled as `""` (both are falsy under the source's
`if zip_code and state:` guard).  `err` carries the rows already inserted into
the dict before the exception was raised. -/
inductive LoadOutcome where
  | ok (rows : List (String × String))
  | err (rowsBeforeError : List (String × String))

/-- The environment `_load_zip_database` runs in: which files exist, what
reading them yields, and whether `os.makedirs` succeeds. -/
structure LoadEnv where
  customProvided : Bool
  customExists : Bool
  customOutcome : LoadOutcome
  defaultExists : Bool
  defaultOutcome : LoadOutcome
  makedirsOk : Bool

/-- The row loop of `_load_from_csv`: insert each row whose two cells are
truthy, later rows overwriting earlier keys. -/
def applyRows (rows : List (String × String)) (m : Db) : Db :=
  rows.foldl (fun acc kv =>
    if !kv.1.isEmpty && !kv.2.isEmpty then
      fun z => if z == kv.1 then some kv.2 else acc z
    else acc) m

/-- `_create_initial_mapping` run on dict `m`: its fixed keys are written over
whatever `m` holds. -/
def apply_initial_mapping (m : Db) : Db :=
  fun z =>
    match create_initial_mapping_find z with
    | some st => some st
    | none => m z

/-- `_load_zip_database` over a `LoadEnv`.  `_download_zip_database` catches
its own exceptions and writes nothing, so it has no effect on the dict; a
`makedirs` failure is caught by the outer handler, which runs
`_create_initial_mapping` once more on top of the dict it had already
populated. -/
def load_zip_database (env : LoadEnv) : Db :=
  if env.customProvided && env.customExists then
    match env.customOutcome with
    | .ok rows => applyRows rows emptyDb
    | .err rows => apply_initial_mapping (applyRows rows emptyDb)
  else if env.defaultExists then
    match env.defaultOutcome with
    | .ok rows => applyRows rows emptyDb
    | .err rows => apply_initial_mapping (applyRows rows emptyDb)
  else
    if env.makedirsOk then apply_initial_mapping emptyDb
    else apply_initial_mapping (apply_initial_mapping emptyDb)

/-- Modelled from the claim's wording, for comparison with
`load_zip_database`: the three sources are tried strictly in priority order
and a failure at any stage falls back to the NEXT source in that order, the
synthesized table last; each source populates the whole database alone. -/
def load_zip_database_next_source (env : LoadEnv) : Db :=
  if env.customProvided && env.customExists then
    match env.customOutcome with
    | .ok rows => applyRows rows emptyDb
    | .err _ =>
      if env.defaultExists then
        match env.defaultOutcome with
        | .ok rows => applyRows rows emptyDb
        | .err _ => apply_initial_mapping emptyDb
      else apply_initial_mapping emptyDb
  else if env.defaultExists then
    match env.defaultOutcome with
    | .ok rows => applyRows rows emptyDb
    | .err _ => apply_initial_mapping emptyDb
  else apply_initial_mapping emptyDb

/-- The state a ZIP candidate is filed under by the loop of
`process_zip_codes`, or `none` when the candidate is recorded as invalid. -/
def acceptZip (db : Db) (z : String) : Option String :=
  if validate_zip_code db z then
    match get_state_for_zip db z with
    | some st => if st == "" then none else some st
    | none => none
  else none

/-- The accepted candidates filed under state `st`, in input order. -/
def acceptedFor (db : Db) (zs : List String) (st : String) : List String :=
  zs.filter (fun z => acceptZip db z == some st)

/-- The group keys created while processing `zs`, given the keys already
`seen`: each accepted state in order of first encounter. -/
def newKeys (db : Db) : List String → List String → List String
  | [], _ => []
  | z :: zs, seen =>
    match acceptZip db z with
    | some st =>
      if st ∈ seen then newKeys db zs seen else st :: newKeys db zs (st :: seen)
    | none => newKeys db zs seen

/-! Format predicates written from the specification's wording, for comparison
with the source-derived matcher. -/

/-- The spec's `5 digits` format. -/
def spec_format5 (cs : List Char) : Bool := cs.length == 5 && cs.all isDigitChar

/-- The spec's `5 digits - 4 digits` format. -/
def spec_format10 (cs : List Char) : Bool :=
  cs.length == 10 && (cs.take 5).all isDigitChar && cs[5]? == some '-' &&
    (cs.drop 6).all isDigitChar

/-- The spec's ZIP format: `5 digits` or `5 digits - 4 digits`. -/
def spec_zip_format (s : String) : Bool :=
  spec_format5 s.data || spec_format10 s.data

/-- The spec's ZIP format, additionally allowing one trailing newline (what
Python's `$` actually accepts). -/
def spec_zip_format_nl (s : String) : Bool :=
  spec_zip_format s ||
    (s.data.getLast? == some '\n' &&
      (spec_format5 s.data.dropLast || spec_format10 s.data.dropLast))

/-- Maximal runs of non-separator characters, from the spec's wording: "split
the text on runs of comma, semicolon, whitespace, or newline characters".
Fueled like `re_split_sepsAux`. -/
def chunksNonSepAux : Nat → List Char → List (List Char)
  | 0, _ => []
  | fuel + 1, cs =>
    match cs.dropWhile isSep with
    | [] => []
    | c :: rest =>
      (c :: rest.takeWhile (fun d => !isSep d)) ::
        chunksNonSepAux fuel (rest.dropWhile (fun d => !isSep d))

def chunksNonSep (cs : List Char) : List (List Char) :=
  chunksNonSepAux (cs.length + 1) cs

/-- The spec's fallback pass: split on separator runs, keep exactly the purely
numeric digit tokens. -/
def spec_fallback_tokens (s : String) : List String :=
  ((chunksNonSep s.data).filter (fun cs => cs.all isDigitChar)).map List.asString

/-! ### Fuel irrelevance of the fueled scanners -/

theorem length_dropWhile_le (p : Char → Bool) (l : List Char) :
    (l.dropWhile p).length ≤ l.length := by
  induction l with
  | nil => simp [List.dropWhile]
  | cons c cs ih =>
    by_cases h : p c <;> simp [List.dropWhile, h] <;> omega


theorem findallZipAux_fuel_irrelevant {f1 f2 : Nat} {b : Bool} {cs : List Char}
    (h1 : cs.length < f1) (h2 : cs.length < f2) :
    findallZipAux f1 b cs = findallZipAux f2 b cs := by
  induction f1 generalizing f2 b cs with
  | zero => omega
  | succ f1 ih =>
    cases f2 with
    | zero => omega
    | succ f2 =>
      cases cs with
      | nil => rfl
      | cons c cs =>
        cases hm : zipMatchAt b (c :: cs) with
        | none =>
          have hb1 : cs.length < f1 := by simp at h1; omega
          have hb2 : cs.length < f2 := by simp at h2; omega
          simp only [findallZipAux, hm]
          exact ih hb1 hb2
        | some v =>
          cases v with
          | true =>
            have hb1 : ((c :: cs).drop 10).length < f1 := by simp at h1 ⊢; omega
            have hb2 : ((c :: cs).drop 10).length < f2 := by simp at h2 ⊢; omega
            simp only [findallZipAux, hm]
            exact congrArg (fun t => ((c :: cs).take 10).asString :: t) (ih hb1 hb2)
          | false =>
            have hb1 : ((c :: cs).drop 5).length < f1 := by simp at h1 ⊢; omega
            have hb2 : ((c :: cs).drop 5).length < f2 := by simp at h2 ⊢; omega
            simp only [findallZipAux, hm]
            exact congrArg (fun t => ((c :: cs).take 5).asString :: t) (ih hb1 hb2)

theorem re_split_sepsAux_fuel_irrelevant {f1 f2 : Nat} {cs : List Char}
    (h1 : cs.length < f1) (h2 : cs.length < f2) :
    re_split_sepsAux f1 cs = re_split_sepsAux f2 cs := by
  induction f1 generalizing f2 cs with
  | zero => omega
  | succ f1 ih =>
    cases f2 with
    | zero => omega
    | succ f2 =>
      cases hd : cs.dropWhile (fun c => !isSep c) with
      | nil => simp only [re_split_sepsAux, hd]
      | cons r rt =>
        have hlen : rt.length + 1 ≤ cs.length := by
          have := length_dropWhile_le (fun c => !isSep c) cs
          rw [hd] at this
          simpa using this
        have hrt := length_dropWhile_le isSep rt
        have hb1 : (rt.dropWhile isSep).length < f1 := by omega
        have hb2 : (rt.dropWhile isSep).length < f2 := by omega
        simp only [re_split_sepsAux, hd]
        exact congrArg (fun t => cs.takeWhile (fun c => !isSep c) :: t) (ih hb1 hb2)

theorem chunksNonSepAux_fuel_irrelevant {f1 f2 : Nat} {cs : List Char}
    (h1 : cs.length < f1) (h2 : cs.length < f2) :
    chunksNonSepAux f1 cs = chunksNonSepAux f2 cs := by
  induction f1 generalizing f2 cs with
  | zero => omega
  | succ f1 ih =>
    cases f2 with
    | zero => omega
    | succ f2 =>
      cases hd : cs.dropWhile isSep with
      | nil => simp only [chunksNonSepAux, hd]
      | cons c rest =>
        have hlen : rest.length + 1 ≤ cs.length := by
          have := length_dropWhile_le isSep cs
          rw [hd] at this
          simpa using this
        have hrest := length_dropWhile_le (fun d => !isSep d) rest
        have hb1 : (rest.dropWhile (fun d => !isSep d)).length < f1 := by omega
        have hb2 : (rest.dropWhile (fun d => !isSep d)).length < f2 := by omega
        simp only [chunksNonSepAux, hd]
        exact congrArg
          (fun t => (c :: rest.takeWhile (fun d => !isSep d)) :: t) (ih hb1 hb2)

/-! ### Characterization of the anchored matcher -/

theorem takeDigits_eq_some {k : Nat} {cs rest : List Char} :
    takeDigits k cs = some rest ↔
      k ≤ cs.length ∧ (cs.take k).all isDigitChar = true ∧ rest = cs.drop k := by
  induction k generalizing cs rest with
  | zero => simp [takeDigits, eq_comm]
  | succ k ih =>
    cases cs with
    | nil => simp [takeDigits]
    | cons c cs =>
      by_cases hc : isDigitChar c = true
      · simp [takeDigits, hc, ih, Nat.succ_le_succ_iff]
      · simp [takeDigits, hc]

theorem dollarAt_true {cs : List Char} :
    dollarAt cs = true ↔ cs = [] ∨ cs = ['\n'] := by
  match cs with
  | [] => simp [dollarAt]
  | [c] => simp [dollarAt]
  | _ :: _ :: _ => simp [dollarAt]

theorem spec_format5_iff {cs : List Char} :
    spec_format5 cs = true ↔ cs.length = 5 ∧ cs.all isDigitChar = true := by
  simp [spec_format5]

theorem spec_format10_iff {cs : List Char} :
    spec_format10 cs = true ↔
      cs.length = 10 ∧ (cs.take 5).all isDigitChar = true ∧
        cs[5]? = some '-' ∧ (cs.drop 6).all isDigitChar = true := by
  simp [spec_format10, and_assoc]

theorem matchZipAnchored_of_none {cs : List Char} (h : takeDigits 5 cs = none) :
    matchZipAnchored cs = false := by
  unfold matchZipAnchored
  rw [h]

theorem matchZipAnchored_of_some {cs rest : List Char}
    (h : takeDigits 5 cs = some rest) : matchZipAnchored cs = matchAfter5 rest := by
  unfold matchZipAnchored
  rw [h]

theorem matchAfterHyphen_of_some {rest2 rest3 : List Char}
    (h : takeDigits 4 rest2 = some rest3) :
    matchAfterHyphen rest2 = (dollarAt rest3 || dollarAt ('-' :: rest2)) := by
  unfold matchAfterHyphen
  rw [h]

theorem matchAfterHyphen_of_none {rest2 : List Char}
    (h : takeDigits 4 rest2 = none) :
    matchAfterHyphen rest2 = dollarAt ('-' :: rest2) := by
  unfold matchAfterHyphen
  rw [h]

theorem matchAfter5_hyphen (rest2 : List Char) :
    matchAfter5 ('-' :: rest2) = matchAfterHyphen rest2 := by
  simp [matchAfter5]

theorem matchAfter5_cons_ne {c : Char} {rest2 : List Char} (h : ¬c = '-') :
    matchAfter5 (c :: rest2) = dollarAt (c :: rest2) := by
  simp [matchAfter5, h]

/-- The anchored regex of `validate_zip_code` accepts exactly the spec's two
formats, optionally followed by one trailing newline (Python's `$`). -/
theorem matchZipAnchored_eq_spec (cs : List Char) :
    matchZipAnchored cs =
      (spec_format5 cs || spec_format10 cs ||
        (cs.getLast? == some '\n' &&
          (spec_format5 cs.dropLast || spec_format10 cs.dropLast))) := by
  rw [Bool.eq_iff_iff]
  constructor
  · intro h
    cases h5 : takeDigits 5 cs with
    | none => rw [matchZipAnchored_of_none h5] at h; simp at h
    | some rest =>
      rw [matchZipAnchored_of_some h5] at h
      obtain ⟨hlen5, hdig5, hrest⟩ := takeDigits_eq_some.1 h5
      cases rest with
      | nil =>
        have hlen : cs.length = 5 := by
          have := List.drop_eq_nil_iff.1 hrest.symm
          omega
        have hT : cs.take 5 = cs := List.take_of_length_le (by omega)
        simp only [Bool.or_eq_true]
        exact Or.inl (Or.inl (spec_format5_iff.2 ⟨hlen, hT ▸ hdig5⟩))
      | cons c rest2 =>
        have hd : cs.drop 5 = c :: rest2 := hrest.symm
        have hget5 : cs[5]? = some c := by
          have h1 := List.getElem?_drop cs 5 0
          rw [hd] at h1
          simpa using h1.symm
        have hlendrop : cs.length = 6 + rest2.length := by
          have h1 := List.length_drop 5 cs
          rw [hd] at h1
          simp at h1
          omega
        have hdrop6 : cs.drop 6 = rest2 := by
          have h1 : List.drop 1 (List.drop 5 cs) = List.drop 6 cs := by
            simp [List.drop_drop]
          rw [hd] at h1
          simpa using h1.symm
        by_cases hc : c = '-'
        · subst hc
          rw [matchAfter5_hyphen] at h
          cases h4 : takeDigits 4 rest2 with
          | none =>
            rw [matchAfterHyphen_of_none h4] at h
            rcases dollarAt_true.1 h with h0 | h0 <;> simp at h0
          | some rest3 =>
            rw [matchAfterHyphen_of_some h4] at h
            obtain ⟨hlen4, hdig4, hrest3⟩ := takeDigits_eq_some.1 h4
            have hdollar : dollarAt rest3 = true := by
              rcases Bool.or_eq_true_iff.1 h with h' | h'
              · exact h'
              · rcases dollarAt_true.1 h' with h0 | h0 <;> simp at h0
            rcases dollarAt_true.1 hdollar with h0 | h0
            -- rest3 = []: the ten-character form fills the whole string
            · rw [h0] at hrest3
              have hlen2 : rest2.length = 4 := by
                have := List.drop_eq_nil_iff.1 hrest3.symm
                omega
              have hlen : cs.length = 10 := by omega
              have hr2 : rest2.take 4 = rest2 := List.take_of_length_le (by omega)
              simp only [Bool.or_eq_true]
              refine Or.inl (Or.inr (spec_format10_iff.2
                ⟨hlen, hdig5, hget5, ?_⟩))
              rw [hdrop6, ← hr2]
              exact hdig4
            -- rest3 = ['\n']: ten-character form plus a trailing newline
            · rw [h0] at hrest3
              have hlen2 : rest2.length = 5 := by
                have h1 := List.length_drop 4 rest2
                rw [← hrest3] at h1
                simp at h1
                omega
              have hlen : cs.length = 11 := by omega
              have hlast : cs.getLast? = some '\n' := by
                rw [List.getLast?_eq_getElem?, hlen]
                show cs[10]? = some '\n'
                have h1 := List.getElem?_drop cs 6 4
                rw [hdrop6] at h1
                have h2 := List.getElem?_drop rest2 4 0
                rw [← hrest3] at h2
                simp only [List.getElem?_cons_zero] at h2
                simp only [Nat.reduceAdd] at h1 h2
                rw [← h1, ← h2]
              have hdl : cs.dropLast = cs.take 10 := by
                rw [List.dropLast_eq_take, hlen]
              refine Bool.or_eq_true_iff.2 (Or.inr ?_)
              simp only [Bool.and_eq_true, Bool.or_eq_true, beq_iff_eq]
              refine ⟨hlast, Or.inr (spec_format10_iff.2 ?_)⟩
              rw [hdl]
              refine ⟨by simp [hlen], ?_, ?_, ?_⟩
              · rw [List.take_take]
                simpa using hdig5
              · rw [List.getElem?_take_of_lt (by omega)]
                exact hget5
              · rw [List.drop_take, hdrop6]
                simpa using hdig4
        · rw [matchAfter5_cons_ne hc] at h
          rcases dollarAt_true.1 h with h0 | h0
          · simp at h0
          · have hc2 : c = '\n' := by
              have := congrArg (fun l => l.headI) h0
              simpa using this
            have hr2 : rest2 = [] := by
              have := congrArg (fun l => l.tail) h0
              simpa using this
            subst hc2
            subst hr2
            have hlen : cs.length = 6 := by simpa using hlendrop
            have hlast : cs.getLast? = some '\n' := by
              rw [List.getLast?_eq_getElem?, hlen]
              simpa using hget5
            have hdl : cs.dropLast = cs.take 5 := by
              rw [List.dropLast_eq_take, hlen]
            refine Bool.or_eq_true_iff.2 (Or.inr ?_)
            simp only [Bool.and_eq_true, Bool.or_eq_true, beq_iff_eq]
            refine ⟨hlast, Or.inl (spec_format5_iff.2 ?_)⟩
            rw [hdl]
            exact ⟨by simp [hlen], by simpa using hdig5⟩
  · intro h
    rcases Bool.or_eq_true_iff.1 h with h' | h'
    · rcases Bool.or_eq_true_iff.1 h' with h5 | h10
      -- bare five-digit string
      · obtain ⟨hlen, hdig⟩ := spec_format5_iff.1 h5
        have hT : cs.take 5 = cs := List.take_of_length_le (by omega)
        have hdropnil : cs.drop 5 = [] := List.drop_eq_nil_of_le (by omega)
        have h5' : takeDigits 5 cs = some [] :=
          takeDigits_eq_some.2 ⟨by omega, by rw [hT]; exact hdig, hdropnil.symm⟩
        rw [matchZipAnchored_of_some h5']
        decide
      -- bare ten-character string
      · obtain ⟨hlen, hdig5, hget5, hdig6⟩ := spec_format10_iff.1 h10
        have h5' : takeDigits 5 cs = some (cs.drop 5) :=
          takeDigits_eq_some.2 ⟨by omega, hdig5, rfl⟩
        have hcons : cs.drop 5 = '-' :: cs.drop 6 := by
          rw [List.drop_eq_getElem_cons (by omega : 5 < cs.length)]
          obtain ⟨_, hv⟩ := List.getElem?_eq_some_iff.1 hget5
          rw [hv]
        have hlen6 : (cs.drop 6).length = 4 := by simp [hlen]
        have hT4 : (cs.drop 6).take 4 = cs.drop 6 :=
          List.take_of_length_le (by omega)
        have hdropnil : (cs.drop 6).drop 4 = [] := List.drop_eq_nil_of_le (by omega)
        have h4' : takeDigits 4 (cs.drop 6) = some [] :=
          takeDigits_eq_some.2 ⟨by omega, by rw [hT4]; exact hdig6, hdropnil.symm⟩
        rw [matchZipAnchored_of_some h5', hcons, matchAfter5_hyphen,
          matchAfterHyphen_of_some h4']
        simp [dollarAt]
    -- a trailing newline after either format
    · simp only [Bool.and_eq_true, Bool.or_eq_true, beq_iff_eq] at h'
      obtain ⟨hlast, hfmt⟩ := h'
      obtain ⟨d, rfl⟩ : ∃ d, cs = d ++ ['\n'] :=
        ⟨cs.dropLast, (List.dropLast_append_getLast? '\n' hlast).symm⟩
      rw [List.dropLast_concat] at hfmt
      rcases hfmt with h5 | h10
      · obtain ⟨hlen, hdig⟩ := spec_format5_iff.1 h5
        have h5' : takeDigits 5 (d ++ ['\n']) = some ['\n'] := by
          refine takeDigits_eq_some.2 ⟨?_, ?_, ?_⟩
          · simp only [List.length_append, List.length_cons, List.length_nil]
            omega
          · rw [List.take_append_of_le_length (by omega),
              List.take_of_length_le (by omega)]
            exact hdig
          · rw [List.drop_left' hlen]
        rw [matchZipAnchored_of_some h5']
        decide
      · obtain ⟨hlen, hdig5, hget5, hdig6⟩ := spec_format10_iff.1 h10
        have hlen6 : (d.drop 6).length = 4 := by simp [hlen]
        have h5' : takeDigits 5 (d ++ ['\n']) = some (d.drop 5 ++ ['\n']) := by
          refine takeDigits_eq_some.2 ⟨?_, ?_, ?_⟩
          · simp only [List.length_append, List.length_cons, List.length_nil]
            omega
          · rw [List.take_append_of_le_length (by omega)]
            exact hdig5
          · rw [List.drop_append_of_le_length (by omega)]
        have hcons : d.drop 5 = '-' :: d.drop 6 := by
          rw [List.drop_eq_getElem_cons (by omega : 5 < d.length)]
          obtain ⟨_, hv⟩ := List.getElem?_eq_some_iff.1 hget5
          rw [hv]
        have h4' : takeDigits 4 (d.drop 6 ++ ['\n']) = some ['\n'] := by
          refine takeDigits_eq_some.2 ⟨?_, ?_, ?_⟩
          · simp [hlen6]
          · rw [List.take_append_of_le_length (by omega),
              List.take_of_length_le (by omega)]
            exact hdig6
          · rw [List.drop_left' hlen6]
        rw [matchZipAnchored_of_some h5', hcons, List.cons_append,
          matchAfter5_hyphen, matchAfterHyphen_of_some h4']
        simp [dollarAt]



/-! ### Supporting lemmas for validation and lookup -/

theorem asString_data (s : String) : s.data.asString = s := rfl

theorem data_asString (l : List Char) : l.asString.data = l := rfl

/-- `validate_zip_code` in closed form: the spec format with an optional
trailing newline, and the database-or-range check on the five-digit base. -/
theorem validate_zip_code_eq (db : Db) (s : String) :
    validate_zip_code db s =
      (spec_zip_format_nl s &&
        ((db (base5 s)).isSome || is_in_valid_range (base5 s))) := by
  have hif : ∀ a x : Bool, (if a then x else false) = (a && x) := by
    intro a x
    cases a <;> simp
  unfold validate_zip_code
  rw [matchZipAnchored_eq_spec]
  unfold spec_zip_format_nl spec_zip_format
  exact hif _ _

theorem digit_ne_hyphen {c : Char} (h : isDigitChar c = true) : (c == '-') = false := by
  cases hb : (c == '-') with
  | false => rfl
  | true =>
    have : c = '-' := by simpa using hb
    subst this
    simp [isDigitChar, Char.isDigit] at h

/-! ### Claim C1 -/

/-- C1, counterexample to the claim as stated: `validate_zip_code` returns
true on `"12345\n"`, which does not match the format `5 digits` or
`5 digits - 4 digits` (Python's `$` also matches just before a trailing
newline). -/
theorem C1_counterexample :
    validate_zip_code emptyDb "12345\n" = true ∧
      spec_zip_format "12345\n" = false := by
  constructor
  · decide
  · decide

/-- C1, amended: for every string `s`, `validate_zip_code(s)` returns true
only if `s` matches the format `5 digits` or `5 digits - 4 digits` optionally
followed by a single trailing newline, and in that case it returns true if and
only if the 5-digit base is present in the loaded database or its numeric
value lies in the open range (0, 100000); `validate_zip_code("99501")` is
true, `validate_zip_code("abc12")` is false, `validate_zip_code("123456")` is
false. -/
theorem C1_validate_zip_code_amended :
    (∀ (db : Db) (s : String),
      validate_zip_code db s =
        (spec_zip_format_nl s &&
          ((db (base5 s)).isSome || is_in_valid_range (base5 s)))) ∧
    (∀ db : Db, validate_zip_code db "99501" = true) ∧
    (∀ db : Db, validate_zip_code db "abc12" = false) ∧
    (∀ db : Db, validate_zip_code db "123456" = false) := by
  refine ⟨validate_zip_code_eq, ?_, ?_, ?_⟩
  · intro db
    rw [validate_zip_code_eq]
    have h1 : spec_zip_format_nl "99501" = true := by decide
    have h2 : is_in_valid_range (base5 "99501") = true := by decide
    rw [h1, h2]
    simp
  · intro db
    rw [validate_zip_code_eq]
    have h1 : spec_zip_format_nl "abc12" = false := by decide
    rw [h1]
    simp
  · intro db
    rw [validate_zip_code_eq]
    have h1 : spec_zip_format_nl "123456" = false := by decide
    rw [h1]
    simp

/-! ### Claim C3 -/

/-- C3: `get_state_for_zip` strips everything after a literal hyphen and
looks the base up in the database; for every hyphen-free base (in particular
every digit-string base) `b` mapped by the database and every suffix `ext`,
the ZIP+4 variant `b ++ "-" ++ ext` resolves to the same mapped state as `b`
itself. -/
theorem C3_get_state_for_zip (db : Db) (b ext st : String)
    (hdb : db b = some st) (hdig : b.data.all isDigitChar = true) :
    get_state_for_zip db (b ++ "-" ++ ext) = some st ∧
      get_state_for_zip db b = some st := by
  have hall : ∀ c ∈ b.data, (!(c == '-')) = true := by
    intro c hc
    have := List.all_eq_true.1 hdig c hc
    simp [digit_ne_hyphen this]
  constructor
  · unfold get_state_for_zip base_before_hyphen
    have hdata : (b ++ "-" ++ ext).data = b.data ++ ('-' :: ext.data) := by
      simp [String.data_append]
    rw [hdata, List.takeWhile_append_of_pos hall]
    have : ('-' :: ext.data).takeWhile (fun c => !(c == '-')) = [] := by
      simp [List.takeWhile]
    rw [this, List.append_nil, asString_data, hdb]
  · unfold get_state_for_zip base_before_hyphen
    rw [List.takeWhile_eq_self_iff.2 hall, asString_data, hdb]

/-- C3 witness: instantiated on the synthesized fallback table at base ZIP
`"99501"` (mapped to AK) with ZIP+4 suffix `"1234"`. -/
theorem C3_witness :
    create_initial_mapping_find "99501" = some "AK" ∧
      "99501".data.all isDigitChar = true ∧
      get_state_for_zip create_initial_mapping_find "99501-1234" = some "AK" ∧
      get_state_for_zip create_initial_mapping_find "99501" = some "AK" := by
  refine ⟨by decide, by decide, ?_⟩
  have h := C3_get_state_for_zip create_initial_mapping_find "99501" "1234" "AK"
    (by decide) (by decide)
  exact ⟨h.1, h.2⟩

/-! ### Claim C7: state-to-URL projection -/

theorem urlLookup_append_single (acc : List (String × String × String))
    (e : String × String × String) (s : String) :
    urlLookup (acc ++ [e]) s =
      match urlLookup acc s with
      | some v => some v
      | none => if e.1 == s then some e.2 else none := by
  unfold urlLookup
  rw [List.find?_append]
  cases h : acc.find? (fun p => p.1 == s) with
  | some p => simp
  | none =>
    cases he : (e.1 == s) with
    | true => simp [List.find?_cons, he]
    | false => simp [List.find?_cons, he]

theorem states_to_urls_fold (sts : List String)
    (acc : List (String × String × String)) (base_url s : String) :
    urlLookup (sts.foldl (fun urls st =>
        match state_names_find st with
        | some name => urls ++ [(st, dispensaries_url base_url name, name)]
        | none => urls) acc) s =
      match urlLookup acc s with
      | some v => some v
      | none => if s ∈ sts then urlEntry base_url s else none := by
  induction sts generalizing acc with
  | nil => cases h : urlLookup acc s <;> simp [h]
  | cons z rest ih =>
    rw [List.foldl_cons, ih]
    cases hz : state_names_find z with
    | some name =>
      rw [urlLookup_append_single]
      cases ha : urlLookup acc s with
      | some v => simp
      | none =>
        cases hes : (z == s) with
        | true =>
          have hzs : z = s := by simpa using hes
          subst hzs
          simp [urlEntry, hz]
        | false =>
          have hsz : ¬s = z := by
            intro he
            subst he
            simp at hes
          by_cases hmem : s ∈ rest
          · simp [hmem, hsz, List.mem_cons]
          · simp [hmem, hsz, List.mem_cons]
    | none =>
      cases ha : urlLookup acc s with
      | some v => simp
      | none =>
        by_cases hzs : s = z
        · subst hzs
          simp [urlEntry, hz, List.mem_cons]
        · by_cases hmem : s ∈ rest
          · simp [hmem, hzs, List.mem_cons]
          · simp [hmem, hzs, List.mem_cons]

/-- C7: every known input code maps to
`({base_url}/states/{name}/{name}-dispensaries/, name)` with `name` the
canonical lowercase hyphenated state name, every unknown code is omitted, and
in particular `states_to_urls {"WA"}` gives Washington's entry while
`states_to_urls {"ZZ"}` gives the empty mapping. -/
theorem C7_states_to_urls :
    (∀ (states : List String) (base_url s : String),
      urlLookup (states_to_urls states base_url) s =
        if s ∈ states then
          (state_names_find s).map
            (fun n => (base_url ++ "/states/" ++ n ++ "/" ++ n ++ "-dispensaries/", n))
        else none) ∧
    states_to_urls ["WA"] default_base_url =
      [("WA", "https://potadvisor.com/states/washington/washington-dispensaries/",
        "washington")] ∧
    states_to_urls ["ZZ"] default_base_url = [] := by
  refine ⟨?_, by decide, by decide⟩
  intro states base_url s
  have h := states_to_urls_fold states [] base_url s
  unfold states_to_urls
  rw [h]
  simp [urlLookup, urlEntry, dispensaries_url]

/-! ### Claim C4: the load fallback chain -/

theorem apply_initial_mapping_idem (m : Db) :
    apply_initial_mapping (apply_initial_mapping m) = apply_initial_mapping m := by
  funext z
  unfold apply_initial_mapping
  cases h : create_initial_mapping_find z <;> simp [h]

/-- C4, counterexample to the claim as stated: in an environment where the
explicit path exists but its load fails while the bundled file exists and
loads fine, the loader does not fall back to the next source (the bundled
file, which maps 90001 to CA here) but jumps to the synthesized table (where
90001 is unmapped). -/
theorem C4_counterexample :
    load_zip_database
        { customProvided := true, customExists := true,
          customOutcome := .err [], defaultExists := true,
          defaultOutcome := .ok [("90001", "CA")], makedirsOk := true }
        "90001" = none ∧
      load_zip_database_next_source
        { customProvided := true, customExists := true,
          customOutcome := .err [], defaultExists := true,
          defaultOutcome := .ok [("90001", "CA")], makedirsOk := true }
        "90001" = some "CA" := by
  constructor
  · decide
  · decide

/-- C4, amended: the database is populated as follows, and construction never
raises (`load_zip_database` is total).  When an explicit path is provided and
exists, it is the only external source consulted: a successful load populates
the database from its rows alone, and a failed load falls back directly to
the synthesized table laid over the partially inserted rows, never consulting
the bundled file.  Only when no explicit path is selected is the bundled file
consulted, with the same two outcomes.  When neither file exists the
synthesized table is used (a `makedirs` failure merely re-runs the
synthesized-table fill, which is idempotent). -/
theorem C4_load_amended (env : LoadEnv) :
    ((env.customProvided && env.customExists) = true →
      load_zip_database env =
        match env.customOutcome with
        | .ok rows => applyRows rows emptyDb
        | .err rows => apply_initial_mapping (applyRows rows emptyDb)) ∧
    ((env.customProvided && env.customExists) = false → env.defaultExists = true →
      load_zip_database env =
        match env.defaultOutcome with
        | .ok rows => applyRows rows emptyDb
        | .err rows => apply_initial_mapping (applyRows rows emptyDb)) ∧
    ((env.customProvided && env.customExists) = false → env.defaultExists = false →
      load_zip_database env = apply_initial_mapping emptyDb) := by
  refine ⟨?_, ?_, ?_⟩
  · intro hc
    unfold load_zip_database
    rw [if_pos hc]
  · intro hc hd
    unfold load_zip_database
    rw [if_neg (by simp [hc]), if_pos hd]
  · intro hc hd
    unfold load_zip_database
    rw [if_neg (by simp [hc]), if_neg (by simp [hd])]
    cases hm : env.makedirsOk <;> simp [apply_initial_mapping_idem]

/-- C4 witness: the amended characterization applied to a concrete
environment whose explicit path load fails with no partial rows: the loaded
database is exactly the synthesized table, whatever the bundled file held. -/
theorem C4_witness :
    load_zip_database
        { customProvided := true, customExists := true,
          customOutcome := .err [], defaultExists := true,
          defaultOutcome := .ok [("90001", "CA")], makedirsOk := true } =
      apply_initial_mapping (applyRows [] emptyDb) :=
  (C4_load_amended _).1 (by decide)

/-! ### Claim C9: the database invariant -/

theorem applyRows_lookup {rows : List (String × String)} {m : Db} {z st : String}
    (h : applyRows rows m z = some st) :
    (∃ kv ∈ rows, kv.1 = z ∧ kv.2 = st) ∨ m z = some st := by
  induction rows generalizing m with
  | nil => exact Or.inr h
  | cons kv rows ih =>
    have h' : applyRows rows
        (if !kv.1.isEmpty && !kv.2.isEmpty then
          fun z => if z == kv.1 then some kv.2 else m z
        else m) z = some st := h
    rcases ih h' with hin | hm
    · obtain ⟨kv', hkv', he⟩ := hin
      exact Or.inl ⟨kv', List.mem_cons_of_mem _ hkv', he⟩
    · by_cases hne : (!kv.1.isEmpty && !kv.2.isEmpty) = true
      · rw [if_pos hne] at hm
        by_cases hz : (z == kv.1) = true
        · rw [if_pos hz] at hm
          refine Or.inl ⟨kv, List.mem_cons_self _ _, ?_, ?_⟩
          · have hz2 : z = kv.1 := by simpa using hz
            exact hz2.symm
          · exact Option.some.inj hm
        · rw [if_neg (by simpa using hz)] at hm
          exact Or.inr hm
      · rw [if_neg hne] at hm
        exact Or.inr hm

theorem create_initial_mapping_inv {z st : String}
    (h : create_initial_mapping_find z = some st) :
    (z.length = 5 ∧ z.data.all isDigitChar = true) ∧
      st.length = 2 ∧ st.data.all Char.isUpper = true := by
  unfold create_initial_mapping_find at h
  by_cases hc : (decide (z.length = 5) && z.data.all isDigitChar) = true
  · rw [if_pos hc] at h
    simp only [Bool.and_eq_true, decide_eq_true_eq] at hc
    cases hf : state_ranges.find? (fun p =>
        decide (p.2.1 ≤ digitsToNat z.data) && decide (digitsToNat z.data ≤ p.2.2)) with
    | none => rw [hf] at h; simp at h
    | some p =>
      rw [hf] at h
      have hst : st = p.1 := by
        obtain ⟨q, hq1, hq2⟩ := Option.map_eq_some'.1 h
        have hpq : p = q := Option.some.inj hq1
        rw [← hq2, ← hpq]
      have hmem := List.mem_of_find?_eq_some hf
      subst hst
      refine ⟨⟨hc.1, hc.2⟩, ?_⟩
      simp only [state_ranges, List.mem_cons, List.not_mem_nil, or_false] at hmem
      rcases hmem with h1 | h1 | h1 | h1 | h1 <;> subst h1 <;> exact ⟨by decide, by decide⟩
  · rw [if_neg hc] at h
    simp at h

/-- C9, counterexample to the claim as stated: nothing in `_load_from_csv`
validates the shape of the cells, so an existing explicit CSV whose row has
ZIP cell `"abc"` and state cell `"California"` populates the database with a
key that is not a 5-digit string and a value that is not a 2-uppercase-letter
abbreviation. -/
theorem C9_counterexample :
    load_zip_database
        { customProvided := true, customExists := true,
          customOutcome := .ok [("abc", "California")], defaultExists := false,
          defaultOutcome := .ok [], makedirsOk := true }
        "abc" = some "California" ∧
      ¬("abc".length = 5) ∧ ¬("California".length = 2) := by
  refine ⟨?_, ?_, ?_⟩ <;> decide

/-- C9, amended: the synthesized source satisfies the key/value format
invariant outright; a CSV source is copied into the database unvalidated, so
the loader preserves the invariant but does not enforce it: whenever every
inserted row already satisfies it, so does the resulting database (a
non-conforming row can break the invariant, per the counterexample, though a
later row overwriting the same key may also mask one); and in every case a
ZIP base maps to at most one state (the mapping is a function). -/
theorem C9_database_invariant_amended :
    (∀ z st : String, create_initial_mapping_find z = some st →
      (z.length = 5 ∧ z.data.all isDigitChar = true) ∧
        st.length = 2 ∧ st.data.all Char.isUpper = true) ∧
    (∀ (rows : List (String × String)) (z st : String),
      (∀ kv ∈ rows, (kv.1.length = 5 ∧ kv.1.data.all isDigitChar = true) ∧
        kv.2.length = 2 ∧ kv.2.data.all Char.isUpper = true) →
      applyRows rows emptyDb z = some st →
      (z.length = 5 ∧ z.data.all isDigitChar = true) ∧
        st.length = 2 ∧ st.data.all Char.isUpper = true) ∧
    (∀ (env : LoadEnv) (z s1 s2 : String),
      load_zip_database env z = some s1 → load_zip_database env z = some s2 →
        s1 = s2) := by
  refine ⟨fun z st h => create_initial_mapping_inv h, ?_, ?_⟩
  · intro rows z st hconf h
    rcases applyRows_lookup h with hin | hempty
    · obtain ⟨kv, hkv, hz, hst⟩ := hin
      have := hconf kv hkv
      rw [hz, hst] at this
      exact this
    · simp [emptyDb] at hempty
  · intro env z s1 s2 h1 h2
    rw [h1] at h2
    exact (Option.some.injEq _ _ ▸ h2)

/-- C9 witness: the amended invariant applied to a conforming one-row CSV. -/
theorem C9_witness :
    applyRows [("90210", "CA")] emptyDb "90210" = some "CA" ∧
      ("90210".length = 5 ∧ "90210".data.all isDigitChar = true) ∧
        "CA".length = 2 ∧ "CA".data.all Char.isUpper = true := by
  refine ⟨by decide, ?_⟩
  exact C9_database_invariant_amended.2.1 [("90210", "CA")] "90210" "CA"
    (by decide) (by decide)

/-! ### The grouping loop of `process_zip_codes` -/

theorem acceptZip_some_imp {db : Db} {z st : String}
    (h : acceptZip db z = some st) :
    validate_zip_code db z = true ∧ get_state_for_zip db z = some st ∧
      ¬st = "" := by
  unfold acceptZip at h
  by_cases hv : validate_zip_code db z = true
  · rw [if_pos hv] at h
    cases hg : get_state_for_zip db z with
    | none =>
      rw [hg] at h
      simp at h
    | some s0 =>
      rw [hg] at h
      change (if s0 == "" then none else some s0) = some st at h
      by_cases h0 : (s0 == "") = true
      · rw [if_pos h0] at h
        simp at h
      · rw [if_neg h0] at h
        have hs : s0 = st := Option.some.inj h
        subst hs
        exact ⟨hv, rfl, by simpa using h0⟩
  · rw [if_neg hv] at h
    simp at h

theorem acceptZip_eq_none_of {db : Db} {z : String}
    (h : validate_zip_code db z = false ∨ get_state_for_zip db z = none ∨
      get_state_for_zip db z = some "") :
    acceptZip db z = none := by
  unfold acceptZip
  rcases h with h | h | h
  · rw [if_neg (by simp [h])]
  · by_cases hv : validate_zip_code db z = true
    · rw [if_pos hv, h]
    · rw [if_neg hv]
  · by_cases hv : validate_zip_code db z = true
    · rw [if_pos hv, h]
      change (if ("" == "") = true then none else some "") = none
      rw [if_pos (by decide)]
    · rw [if_neg hv]

theorem comp_fst_groupUpdate (st s z : String) :
    ((fun q : String × List String => q.1 == s) ∘
      (fun q : String × List String =>
        if q.1 == st then (q.1, q.2 ++ [z]) else q)) =
      (fun q : String × List String => q.1 == s) := by
  funext q
  by_cases hq : (q.1 == st) = true <;> simp [Function.comp, hq]

theorem groupLookup_addToGroup_same (g : Grouping) (st z : String) :
    groupLookup (addToGroup g st z) st =
      some ((groupLookup g st).getD [] ++ [z]) := by
  unfold addToGroup
  by_cases hany : (List.any g fun q => q.1 == st) = true
  · rw [if_pos hany]
    unfold groupLookup
    rw [List.find?_map, comp_fst_groupUpdate st st z]
    obtain ⟨q0, hq0mem, hq0⟩ := List.any_eq_true.1 hany
    have hsome : (g.find? fun q => q.1 == st).isSome :=
      List.find?_isSome.2 ⟨q0, hq0mem, hq0⟩
    obtain ⟨q, hq⟩ := Option.isSome_iff_exists.1 hsome
    have hqs' := List.find?_some hq
    have hqs : (q.1 == st) = true := hqs'
    rw [hq]
    simp only [Option.map_some', Option.getD_some]
    rw [if_pos hqs]
  · rw [if_neg hany]
    have hnone : (g.find? fun q => q.1 == st) = none := by
      rw [List.find?_eq_none]
      intro q hqmem hq
      exact hany (List.any_eq_true.2 ⟨q, hqmem, hq⟩)
    unfold groupLookup
    rw [List.find?_append, hnone]
    simp [List.find?_cons]

theorem groupLookup_addToGroup_other {g : Grouping} {st z s : String}
    (h : ¬s = st) :
    groupLookup (addToGroup g st z) s = groupLookup g s := by
  unfold addToGroup
  by_cases hany : (List.any g fun q => q.1 == st) = true
  · rw [if_pos hany]
    unfold groupLookup
    rw [List.find?_map, comp_fst_groupUpdate st s z]
    cases hf : g.find? (fun q => q.1 == s) with
    | none => simp
    | some q =>
      have hq' := List.find?_some hf
      have hq : (q.1 == s) = true := hq'
      have hqs : q.1 = s := by simpa using hq
      have hqnst : ¬(q.1 == st) = true := by
        rw [hqs]
        simpa using h
      simp only [Option.map_some']
      rw [if_neg hqnst]
  · rw [if_neg hany]
    unfold groupLookup
    rw [List.find?_append]
    have h2 : List.find? (fun q => q.1 == s) [(st, [z])] = none := by
      rw [List.find?_eq_none]
      intro x hx
      simp only [List.mem_singleton] at hx
      subst hx
      simpa using fun he => h he.symm
    rw [h2]
    cases hf : g.find? (fun q => q.1 == s) <;> simp

theorem processStep_eq (db : Db) (acc : Grouping × List String) (z : String) :
    processStep db acc z =
      match acceptZip db z with
      | some st => (addToGroup acc.1 st z, acc.2)
      | none => (acc.1, acc.2 ++ [z]) := by
  unfold processStep acceptZip
  by_cases hv : validate_zip_code db z = true
  · rw [if_pos hv, if_pos hv]
    cases hg : get_state_for_zip db z with
    | none => rfl
    | some st =>
      change (if st == "" then (acc.1, acc.2 ++ [z])
          else (addToGroup acc.1 st z, acc.2)) =
        match (if st == "" then none else some st : Option String) with
        | some st => (addToGroup acc.1 st z, acc.2)
        | none => (acc.1, acc.2 ++ [z])
      by_cases h0 : (st == "") = true
      · rw [if_pos h0, if_pos h0]
      · rw [if_neg h0, if_neg h0]
  · rw [if_neg hv, if_neg hv]

theorem process_fold_lookup (db : Db) (zs : List String) :
    ∀ (g : Grouping) (inv : List String) (S : String),
      groupLookup (zs.foldl (processStep db) (g, inv)).1 S =
        match groupLookup g S with
        | some l0 => some (l0 ++ acceptedFor db zs S)
        | none =>
          if acceptedFor db zs S = [] then none
          else some (acceptedFor db zs S) := by
  induction zs with
  | nil =>
    intro g inv S
    cases h : groupLookup g S <;> simp [acceptedFor, h]
  | cons z zs ih =>
    intro g inv S
    rw [List.foldl_cons, processStep_eq]
    cases ha : acceptZip db z with
    | none =>
      have hf : acceptedFor db (z :: zs) S = acceptedFor db zs S := by
        simp [acceptedFor, List.filter_cons, ha]
      rw [hf]
      exact ih g (inv ++ [z]) S
    | some st =>
      by_cases hS : S = st
      · subst hS
        have hf : acceptedFor db (z :: zs) S = z :: acceptedFor db zs S := by
          simp [acceptedFor, List.filter_cons, ha]
        rw [hf]
        have := ih (addToGroup g S z) inv S
        rw [groupLookup_addToGroup_same] at this
        rw [show (zs.foldl (processStep db) (addToGroup g S z, inv)).1 =
            (zs.foldl (processStep db)
              ((match (some S : Option String) with
                | some st => (addToGroup g st z, inv)
                | none => (g, inv ++ [z])) : Grouping × List String)).1 from rfl] at this
        rw [this]
        cases hg : groupLookup g S with
        | some l0 => simp [hg]
        | none => simp [hg]
      · have hf : acceptedFor db (z :: zs) S = acceptedFor db zs S := by
          have : (acceptZip db z == some S) = false := by
            rw [ha]
            simpa using fun he => hS he.symm
          simp [acceptedFor, List.filter_cons, this]
        rw [hf]
        have := ih (addToGroup g st z) inv S
        rw [groupLookup_addToGroup_other hS] at this
        exact this

/-- The lookup of `process_zip_codes`'s result in closed form: the accepted
candidates filed under `S`, in input order, or absent when there are none. -/
theorem process_zip_codes_lookup (db : Db) (input : ZipInput) (S : String) :
    groupLookup (process_zip_codes db input) S =
      if acceptedFor db (candidates_of input) S = [] then none
      else some (acceptedFor db (candidates_of input) S) := by
  unfold process_zip_codes process_zip_list
  rw [process_fold_lookup db (candidates_of input) [] [] S]
  rfl

/-! ### Claim C10: soundness of the returned grouping -/

/-- C10: every state key `S` and ZIP `z` of the returned grouping satisfy
`validate_zip_code z = true` and `get_state_for_zip z = some S`, every key is
a value of the loaded database, and no sequence in the grouping is empty. -/
theorem C10_grouping_sound (db : Db) (input : ZipInput) (S : String)
    (l : List String)
    (h : groupLookup (process_zip_codes db input) S = some l) :
    l ≠ [] ∧ (∃ b, db b = some S) ∧
      ∀ z ∈ l, validate_zip_code db z = true ∧
        get_state_for_zip db z = some S := by
  rw [process_zip_codes_lookup] at h
  by_cases he : acceptedFor db (candidates_of input) S = []
  · rw [if_pos he] at h
    exact absurd h (by simp)
  · rw [if_neg he] at h
    have hl : l = acceptedFor db (candidates_of input) S :=
      (Option.some.inj h).symm
    subst hl
    have hmem : ∀ z ∈ acceptedFor db (candidates_of input) S,
        validate_zip_code db z = true ∧ get_state_for_zip db z = some S := by
      intro z hz
      have hp := (List.mem_filter.1 hz).2
      have ha : acceptZip db z = some S := by simpa using hp
      have := acceptZip_some_imp ha
      exact ⟨this.1, this.2.1⟩
    refine ⟨he, ?_, hmem⟩
    obtain ⟨z, hz⟩ := List.exists_mem_of_ne_nil _ he
    have := (hmem z hz).2
    exact ⟨base_before_hyphen z, this⟩

/-- C10 witness: instantiated on the synthesized table with input
`["99501"]`, state key AK and sequence `["99501"]`. -/
theorem C10_witness :
    groupLookup (process_zip_codes create_initial_mapping_find
        (.list ["99501"])) "AK" = some ["99501"] ∧
      (["99501"] ≠ [] ∧ (∃ b, create_initial_mapping_find b = some "AK") ∧
        ∀ z ∈ ["99501"], validate_zip_code create_initial_mapping_find z = true ∧
          get_state_for_zip create_initial_mapping_find z = some "AK") :=
  ⟨by decide, C10_grouping_sound create_initial_mapping_find (.list ["99501"])
    "AK" ["99501"] (by decide)⟩

/-! ### Claim C5: per-ZIP failures are excluded, never raised -/

/-- C5: a candidate that fails `validate_zip_code`, or validates but does not
resolve to a (non-empty) state, appears in no sequence of the returned
grouping, and the empty string and ZIP-free text produce the empty grouping
(processing is total, so nothing is raised). -/
theorem C5_invalid_excluded :
    (∀ (db : Db) (input : ZipInput) (z : String),
      (validate_zip_code db z = false ∨ get_state_for_zip db z = none ∨
        get_state_for_zip db z = some "") →
      ∀ (S : String) (l : List String),
        groupLookup (process_zip_codes db input) S = some l → z ∉ l) ∧
    (∀ db : Db, process_zip_codes db (.str "") = []) ∧
    (∀ db : Db, process_zip_codes db (.str "not a zip at all") = []) := by
  refine ⟨?_, fun db => rfl, fun db => rfl⟩
  intro db input z hbad S l h hzl
  rw [process_zip_codes_lookup] at h
  by_cases he : acceptedFor db (candidates_of input) S = []
  · rw [if_pos he] at h
    exact absurd h (by simp)
  · rw [if_neg he] at h
    have hl : l = acceptedFor db (candidates_of input) S :=
      (Option.some.inj h).symm
    subst hl
    have hp := (List.mem_filter.1 hzl).2
    have ha : acceptZip db z = some S := by simpa using hp
    rw [acceptZip_eq_none_of hbad] at ha
    exact absurd ha (by simp)

/-- C5 witness: a failing candidate (`"abcde"` fails validation) is not in
the sequence that input `["99501"]` produces for AK. -/
theorem C5_witness :
    validate_zip_code create_initial_mapping_find "abcde" = false ∧
      groupLookup (process_zip_codes create_initial_mapping_find
        (.list ["99501"])) "AK" = some ["99501"] ∧
      "abcde" ∉ ["99501"] :=
  ⟨by decide, by decide,
    C5_invalid_excluded.1 create_initial_mapping_find (.list ["99501"]) "abcde"
      (Or.inl (by decide)) "AK" ["99501"] (by decide)⟩

/-! ### Claim C6: grouping order, duplicates, key creation order -/

theorem groupKeys_addToGroup (g : Grouping) (st z : String) :
    (addToGroup g st z).map Prod.fst =
      if st ∈ g.map Prod.fst then g.map Prod.fst
      else g.map Prod.fst ++ [st] := by
  unfold addToGroup
  by_cases hany : (List.any g fun q => q.1 == st) = true
  · rw [if_pos hany]
    have hmem : st ∈ g.map Prod.fst := by
      obtain ⟨q, hqmem, hq⟩ := List.any_eq_true.1 hany
      exact List.mem_map.2 ⟨q, hqmem, by simpa using hq⟩
    rw [if_pos hmem, List.map_map]
    have hcomp : (Prod.fst ∘ fun q : String × List String =>
        if q.1 == st then (q.1, q.2 ++ [z]) else q) = Prod.fst := by
      funext q
      by_cases hq : (q.1 == st) = true <;> simp [Function.comp, hq]
    rw [hcomp]
  · rw [if_neg hany]
    have hmem : st ∉ g.map Prod.fst := by
      intro hc
      obtain ⟨q, hqmem, hq⟩ := List.mem_map.1 hc
      exact hany (List.any_eq_true.2 ⟨q, hqmem, by simpa using hq⟩)
    rw [if_neg hmem]
    simp

theorem newKeys_congr (db : Db) (zs : List String) :
    ∀ {seen1 seen2 : List String}, (∀ x, x ∈ seen1 ↔ x ∈ seen2) →
      newKeys db zs seen1 = newKeys db zs seen2 := by
  induction zs with
  | nil => intro seen1 seen2 _; rfl
  | cons z zs ih =>
    intro seen1 seen2 hiff
    cases ha : acceptZip db z with
    | none =>
      simp only [newKeys, ha]
      exact ih hiff
    | some st =>
      simp only [newKeys, ha]
      by_cases hmem : st ∈ seen1
      · rw [if_pos hmem, if_pos ((hiff st).1 hmem)]
        exact ih hiff
      · rw [if_neg hmem, if_neg (fun hc => hmem ((hiff st).2 hc))]
        refine congrArg (st :: ·) (ih ?_)
        intro x
        simp only [List.mem_cons]
        exact or_congr Iff.rfl (hiff x)

theorem process_fold_keys (db : Db) (zs : List String) :
    ∀ (g : Grouping) (inv : List String),
      ((zs.foldl (processStep db) (g, inv)).1).map Prod.fst =
        g.map Prod.fst ++ newKeys db zs (g.map Prod.fst) := by
  induction zs with
  | nil => intro g inv; simp [newKeys]
  | cons z zs ih =>
    intro g inv
    rw [List.foldl_cons, processStep_eq]
    cases ha : acceptZip db z with
    | none =>
      simp only [newKeys, ha]
      exact ih g (inv ++ [z])
    | some st =>
      by_cases hmem : st ∈ g.map Prod.fst
      · simp only [newKeys, ha]
        rw [if_pos hmem]
        have hkeys := ih (addToGroup g st z) inv
        rw [groupKeys_addToGroup, if_pos hmem] at hkeys
        exact hkeys
      · simp only [newKeys, ha]
        rw [if_neg hmem]
        have hkeys := ih (addToGroup g st z) inv
        rw [groupKeys_addToGroup, if_neg hmem] at hkeys
        rw [List.append_assoc, List.singleton_append] at hkeys
        have hnk : newKeys db zs (g.map Prod.fst ++ [st]) =
            newKeys db zs (st :: g.map Prod.fst) :=
          newKeys_congr db zs
            (fun x => by simp [List.mem_append, List.mem_cons, or_comm])
        rw [hnk] at hkeys
        exact hkeys

/-- C6: in the grouping returned by `process_zip_codes`, each state's
sequence is exactly the accepted candidates resolving to that state in the
order they were encountered (so duplicates are all preserved), a state's key
is created on first encounter (the key list is the accepted states in order
of first occurrence), and in particular `["99501", "99501"]` yields both
occurrences under AK in input order. -/
theorem C6_grouping_order :
    (∀ (db : Db) (zs : List String) (S : String),
      groupLookup (process_zip_codes db (.list zs)) S =
        if acceptedFor db zs S = [] then none
        else some (acceptedFor db zs S)) ∧
    (∀ (db : Db) (zs : List String),
      (process_zip_codes db (.list zs)).map Prod.fst = newKeys db zs []) ∧
    process_zip_codes create_initial_mapping_find (.list ["99501", "99501"]) =
      [("AK", ["99501", "99501"])] := by
  refine ⟨?_, ?_, by decide⟩
  · intro db zs S
    exact process_zip_codes_lookup db (.list zs) S
  · intro db zs
    have := process_fold_keys db zs [] []
    simpa using this

/-! ### Claim C8: purity and determinism of `process_zip_codes` -/

theorem processStep_st_eq (db : Db) (gi : Grouping × List String) (z : String) :
    processStep_st (db, gi) z = (db, processStep db gi z) := by
  simp only [processStep_st, processStep, validate_zip_code_st,
    get_state_for_zip_st]
  by_cases hv : validate_zip_code db z = true
  · simp only [hv, if_true]
    cases hg : get_state_for_zip db z with
    | none => simp
    | some st => by_cases h0 : (st == "") = true <;> simp [h0]
  · simp [hv]

theorem process_fold_st (db : Db) (zs : List String) :
    ∀ gi : Grouping × List String,
      zs.foldl processStep_st (db, gi) = (db, zs.foldl (processStep db) gi) := by
  induction zs with
  | nil => intro gi; rfl
  | cons z zs ih =>
    intro gi
    rw [List.foldl_cons, processStep_st_eq, List.foldl_cons]
    exact ih (processStep db gi z)

/-- C8: `process_zip_codes` is deterministic and mutation-free over the
loaded database: the threaded state comes back unchanged, the grouping
computed by the state-threaded run is the pure function of the database and
input, and a second call starting from the state the first call returned
behaves exactly like the first. -/
theorem C8_pure_deterministic (db : Db) (input : ZipInput) :
    (process_zip_codes_st db input).1 = db ∧
      (process_zip_codes_st db input).2 = process_zip_codes db input ∧
      process_zip_codes_st (process_zip_codes_st db input).1 input =
        process_zip_codes_st db input := by
  have h := process_fold_st db (candidates_of input) ([], [])
  have h1 : (process_zip_codes_st db input).1 = db := by
    unfold process_zip_codes_st
    rw [h]
  have h2 : (process_zip_codes_st db input).2 = process_zip_codes db input := by
    unfold process_zip_codes_st process_zip_codes process_zip_list
    rw [h]
  exact ⟨h1, h2, by rw [h1]⟩

/-! ### Claim C2: the two parsing passes -/

theorem zipMatchAfter5_some_true {rest : List Char}
    (h : zipMatchAfter5 rest = some true) :
    ∃ rest2 rest3, rest = '-' :: rest2 ∧ takeDigits 4 rest2 = some rest3 := by
  cases rest with
  | nil => simp [zipMatchAfter5] at h
  | cons c rest2 =>
    simp only [zipMatchAfter5] at h
    by_cases hc : (c == '-') = true
    · rw [if_pos hc] at h
      have hc' : c = '-' := by simpa using hc
      subst hc'
      unfold zipMatchAfterHyphen at h
      cases h4 : takeDigits 4 rest2 with
      | none =>
        rw [h4] at h
        simp at h
      | some rest3 => exact ⟨rest2, rest3, rfl, h4⟩
    · rw [if_neg hc] at h
      by_cases hbd : boundaryAt (c :: rest2) = true
      · rw [if_pos hbd] at h
        simp at h
      · rw [if_neg hbd] at h
        simp at h

theorem zipMatchAt_some_imp {b : Bool} {cs : List Char} {v : Bool}
    (h : zipMatchAt b cs = some v) :
    5 ≤ cs.length ∧ (cs.take 5).all isDigitChar = true ∧
      (v = true → cs[5]? = some '-' ∧ 10 ≤ cs.length ∧
        ((cs.drop 6).take 4).all isDigitChar = true) := by
  unfold zipMatchAt at h
  by_cases hb : b = true
  · rw [if_pos hb] at h
    simp at h
  · rw [if_neg hb] at h
    cases h5 : takeDigits 5 cs with
    | none =>
      rw [h5] at h
      simp at h
    | some rest =>
      rw [h5] at h
      change zipMatchAfter5 rest = some v at h
      obtain ⟨hlen5, hdig5, hrest⟩ := takeDigits_eq_some.1 h5
      refine ⟨hlen5, hdig5, ?_⟩
      intro hv
      subst hv
      obtain ⟨rest2, rest3, hcons, h4⟩ := zipMatchAfter5_some_true h
      rw [hcons] at hrest
      have hd : cs.drop 5 = '-' :: rest2 := hrest.symm
      obtain ⟨hlen4, hdig4, _⟩ := takeDigits_eq_some.1 h4
      have hget5 : cs[5]? = some '-' := by
        have h1 := List.getElem?_drop cs 5 0
        rw [hd] at h1
        simpa using h1.symm
      have hlendrop : cs.length = 6 + rest2.length := by
        have h1 := List.length_drop 5 cs
        rw [hd] at h1
        simp at h1
        omega
      have hdrop6 : cs.drop 6 = rest2 := by
        have h1 : List.drop 1 (List.drop 5 cs) = List.drop 6 cs := by
          simp [List.drop_drop]
        rw [hd] at h1
        simpa using h1.symm
      refine ⟨hget5, by omega, ?_⟩
      rw [hdrop6]
      exact hdig4

theorem findallZipAux_format {fuel : Nat} :
    ∀ {b : Bool} {cs : List Char} {t : String},
      t ∈ findallZipAux fuel b cs → spec_zip_format t = true := by
  induction fuel with
  | zero =>
    intro b cs t h
    simp [findallZipAux] at h
  | succ fuel ih =>
    intro b cs t h
    cases cs with
    | nil => simp [findallZipAux] at h
    | cons c cs' =>
      cases hm : zipMatchAt b (c :: cs') with
      | none =>
        simp only [findallZipAux, hm] at h
        exact ih h
      | some v =>
        obtain ⟨hlen5, hdig5, hten⟩ := zipMatchAt_some_imp hm
        cases v with
        | true =>
          obtain ⟨hget5, hlen10, hdig4⟩ := hten rfl
          simp only [findallZipAux, hm, List.mem_cons] at h
          rcases h with h | h
          · subst h
            unfold spec_zip_format
            refine Bool.or_eq_true_iff.2 (Or.inr (spec_format10_iff.2 ?_))
            simp only [data_asString]
            have h10 : 10 ≤ cs'.length + 1 := by simpa using hlen10
            refine ⟨?_, ?_, ?_, ?_⟩
            · simp only [List.length_take, List.length_cons]
              omega
            · rw [List.take_take]
              simpa using hdig5
            · rw [List.getElem?_take_of_lt (by omega : (5 : Nat) < 10)]
              exact hget5
            · rw [List.drop_take]
              simpa using hdig4
          · exact ih h
        | false =>
          simp only [findallZipAux, hm, List.mem_cons] at h
          rcases h with h | h
          · subst h
            unfold spec_zip_format
            refine Bool.or_eq_true_iff.2 (Or.inl (spec_format5_iff.2 ?_))
            simp only [data_asString]
            have h5 : 5 ≤ cs'.length + 1 := by simpa using hlen5
            refine ⟨?_, hdig5⟩
            simp only [List.length_take, List.length_cons]
            omega
          · exact ih h

/-! ### The fallback splitter versus the spec's run splitter -/

theorem head_dropWhile_not {p : Char → Bool} :
    ∀ {cs r : List Char} {c : Char}, cs.dropWhile p = c :: r → p c = false := by
  intro cs
  induction cs with
  | nil => intro r c h; simp [List.dropWhile] at h
  | cons x cs ih =>
    intro r c h
    by_cases hx : p x = true
    · rw [List.dropWhile_cons_of_pos hx] at h
      exact ih h
    · rw [List.dropWhile_cons_of_neg hx] at h
      obtain ⟨h1, _⟩ := List.cons.inj h
      rw [← h1]
      simpa using hx

theorem dropWhile_eq_self_of_all {p : Char → Bool} {l : List Char}
    (h : ∀ c ∈ l, p c = false) : l.dropWhile p = l := by
  cases l with
  | nil => rfl
  | cons c l =>
    rw [List.dropWhile_cons_of_neg]
    simp [h c (List.mem_cons_self c l)]

theorem dropWhile_isSep_idem (l : List Char) :
    (l.dropWhile isSep).dropWhile isSep = l.dropWhile isSep := by
  cases hd : l.dropWhile isSep with
  | nil => rfl
  | cons c r =>
    rw [List.dropWhile_cons_of_neg]
    simp [head_dropWhile_not hd]

theorem re_split_seps_of_nil {cs : List Char}
    (hd : cs.dropWhile (fun c => !isSep c) = []) :
    re_split_seps cs = [cs.takeWhile (fun c => !isSep c)] := by
  unfold re_split_seps
  simp only [re_split_sepsAux, hd]

theorem re_split_seps_of_cons {cs rt : List Char} {r : Char}
    (hd : cs.dropWhile (fun c => !isSep c) = r :: rt) :
    re_split_seps cs =
      cs.takeWhile (fun c => !isSep c) :: re_split_seps (rt.dropWhile isSep) := by
  conv_lhs => rw [re_split_seps]
  rw [show re_split_sepsAux (cs.length + 1) cs =
      cs.takeWhile (fun c => !isSep c) ::
        re_split_sepsAux cs.length (rt.dropWhile isSep) from by
    simp only [re_split_sepsAux, hd]]
  conv_rhs => rw [re_split_seps]
  refine congrArg _ (re_split_sepsAux_fuel_irrelevant ?_ ?_)
  · have h1 := length_dropWhile_le (fun c => !isSep c) cs
    rw [hd] at h1
    have h2 := length_dropWhile_le isSep rt
    simp at h1
    omega
  · omega

theorem chunksNonSep_of_nil {cs : List Char} (hd : cs.dropWhile isSep = []) :
    chunksNonSep cs = [] := by
  unfold chunksNonSep
  simp only [chunksNonSepAux, hd]

theorem chunksNonSep_of_cons {cs rest : List Char} {c : Char}
    (hd : cs.dropWhile isSep = c :: rest) :
    chunksNonSep cs =
      (c :: rest.takeWhile (fun d => !isSep d)) ::
        chunksNonSep (rest.dropWhile (fun d => !isSep d)) := by
  conv_lhs => rw [chunksNonSep]
  rw [show chunksNonSepAux (cs.length + 1) cs =
      (c :: rest.takeWhile (fun d => !isSep d)) ::
        chunksNonSepAux cs.length (rest.dropWhile (fun d => !isSep d)) from by
    simp only [chunksNonSepAux, hd]]
  conv_rhs => rw [chunksNonSep]
  refine congrArg _ (chunksNonSepAux_fuel_irrelevant ?_ ?_)
  · have h1 := length_dropWhile_le isSep cs
    rw [hd] at h1
    have h2 := length_dropWhile_le (fun d => !isSep d) rest
    simp at h1
    omega
  · omega

theorem chunksNonSep_congr {cs cs' : List Char}
    (h : cs.dropWhile isSep = cs'.dropWhile isSep) :
    chunksNonSep cs = chunksNonSep cs' := by
  cases hd : cs.dropWhile isSep with
  | nil => rw [chunksNonSep_of_nil hd, chunksNonSep_of_nil (h ▸ hd)]
  | cons c rest =>
    have hd' : cs'.dropWhile isSep = c :: rest := h ▸ hd
    rw [chunksNonSep_of_cons hd, ← chunksNonSep_of_cons hd']

theorem filter_re_split_eq_chunks :
    ∀ (n : Nat) (cs : List Char), cs.length ≤ n →
      (re_split_seps cs).filter (fun z => !z.isEmpty) = chunksNonSep cs := by
  intro n
  induction n with
  | zero =>
    intro cs h
    have : cs = [] := List.eq_nil_of_length_eq_zero (by omega)
    subst this
    decide
  | succ n ih =>
    intro cs hlen
    cases hd : cs.dropWhile (fun c => !isSep c) with
    | nil =>
      -- no separator anywhere in cs
      have hall : ∀ x ∈ cs, (!isSep x) = true := List.dropWhile_eq_nil_iff.1 hd
      have htw : cs.takeWhile (fun c => !isSep c) = cs :=
        List.takeWhile_eq_self_iff.2 hall
      rw [re_split_seps_of_nil hd, htw]
      cases cs with
      | nil => decide
      | cons c cs' =>
        have hc : isSep c = false := by
          simpa using hall c (List.mem_cons_self c cs')
        have hd2 : (c :: cs').dropWhile isSep = c :: cs' :=
          List.dropWhile_cons_of_neg (by simp [hc])
        rw [chunksNonSep_of_cons hd2]
        have htw' : cs'.takeWhile (fun d => !isSep d) = cs' :=
          List.takeWhile_eq_self_iff.2
            (fun x hx => hall x (List.mem_cons_of_mem c hx))
        have hdw' : cs'.dropWhile (fun d => !isSep d) = [] :=
          List.dropWhile_eq_nil_iff.2
            (fun x hx => hall x (List.mem_cons_of_mem c hx))
        rw [htw', hdw']
        rw [chunksNonSep_of_nil (by rfl)]
        simp [List.filter_cons]
    | cons r rt =>
      have hr : isSep r = true := by
        have := head_dropWhile_not hd
        simpa using this
      have hsplit : cs.takeWhile (fun c => !isSep c) ++ (r :: rt) = cs := by
        rw [← hd]
        exact List.takeWhile_append_dropWhile _ _
      have hlenrt : rt.length + 1 ≤ cs.length := by
        have := length_dropWhile_le (fun c => !isSep c) cs
        rw [hd] at this
        simpa using this
      have hnextlen : (rt.dropWhile isSep).length ≤ n := by
        have := length_dropWhile_le isSep rt
        omega
      rw [re_split_seps_of_cons hd]
      cases htw : cs.takeWhile (fun c => !isSep c) with
      | nil =>
        -- the text starts with a separator: the first token is empty
        have hcs : cs = r :: rt := by
          rw [← hsplit, htw, List.nil_append]
        have hchunks : chunksNonSep cs = chunksNonSep (rt.dropWhile isSep) := by
          refine chunksNonSep_congr ?_
          rw [hcs, List.dropWhile_cons_of_pos (by simp [hr]),
            dropWhile_isSep_idem]
        rw [hchunks, List.filter_cons]
        simp only [List.isEmpty_nil, Bool.not_true, Bool.false_eq_true,
          if_false]
        exact ih (rt.dropWhile isSep) hnextlen
      | cons t0 tw' =>
        -- the first token is the non-empty chunk at the head of the text
        have halltw : ∀ x ∈ (t0 :: tw'), (!isSep x) = true := by
          intro x hx
          rw [← htw] at hx
          have hx' := List.mem_takeWhile_imp hx
          exact hx'
        have ht0 : isSep t0 = false := by
          simpa using halltw t0 (List.mem_cons_self t0 tw')
        have hcs : cs = t0 :: (tw' ++ r :: rt) := by
          rw [← hsplit, htw]
          rfl
        have hd2 : cs.dropWhile isSep = t0 :: (tw' ++ r :: rt) := by
          rw [hcs]
          exact List.dropWhile_cons_of_neg (by simp [ht0])
        rw [chunksNonSep_of_cons hd2]
        have htw2 : (tw' ++ r :: rt).takeWhile (fun d => !isSep d) = tw' := by
          rw [List.takeWhile_append_of_pos
            (fun x hx => halltw x (List.mem_cons_of_mem t0 hx))]
          rw [List.takeWhile_cons_of_neg (by simp [hr])]
          simp
        have hdw2 : (tw' ++ r :: rt).dropWhile (fun d => !isSep d) = r :: rt := by
          rw [List.dropWhile_append_of_pos
            (fun x hx => halltw x (List.mem_cons_of_mem t0 hx))]
          exact List.dropWhile_cons_of_neg (by simp [hr])
        have hchunks2 : chunksNonSep (r :: rt) =
            chunksNonSep (rt.dropWhile isSep) := by
          refine chunksNonSep_congr ?_
          rw [List.dropWhile_cons_of_pos (by simp [hr]), dropWhile_isSep_idem]
        rw [htw2, hdw2, hchunks2, List.filter_cons]
        simp only [List.isEmpty_cons, Bool.not_false, if_true]
        rw [ih (rt.dropWhile isSep) hnextlen]

theorem re_split_tokens_nonsep :
    ∀ (n : Nat) (cs : List Char), cs.length ≤ n →
      ∀ z ∈ re_split_seps cs, z.all (fun c => !isSep c) = true := by
  intro n
  induction n with
  | zero =>
    intro cs h z hz
    have hnil : cs = [] := List.eq_nil_of_length_eq_zero (by omega)
    subst hnil
    have : z = [] := by
      have h0 : re_split_seps [] = [[]] := by decide
      rw [h0] at hz
      simpa using hz
    subst this
    rfl
  | succ n ih =>
    intro cs hlen z hz
    cases hd : cs.dropWhile (fun c => !isSep c) with
    | nil =>
      rw [re_split_seps_of_nil hd] at hz
      have : z = cs.takeWhile (fun c => !isSep c) := by simpa using hz
      subst this
      exact List.all_takeWhile
    | cons r rt =>
      rw [re_split_seps_of_cons hd] at hz
      rcases List.mem_cons.1 hz with hz | hz
      · subst hz
        exact List.all_takeWhile
      · have hlenrt : rt.length + 1 ≤ cs.length := by
          have := length_dropWhile_le (fun c => !isSep c) cs
          rw [hd] at this
          simpa using this
        have hnext : (rt.dropWhile isSep).length ≤ n := by
          have := length_dropWhile_le isSep rt
          omega
        exact ih (rt.dropWhile isSep) hnext z hz

theorem isPySpace_imp_isSep {c : Char} (h : isPySpace c = true) :
    isSep c = true := by
  simp [isSep, h]

theorem stripChars_eq_self {z : List Char}
    (h : z.all (fun c => !isSep c) = true) : stripChars z = z := by
  have hns : ∀ c ∈ z, isPySpace c = false := by
    intro c hc
    have hc2 := List.all_eq_true.1 h c hc
    cases hp : isPySpace c with
    | false => rfl
    | true => simp [isPySpace_imp_isSep hp] at hc2
  unfold stripChars
  rw [dropWhile_eq_self_of_all hns,
    dropWhile_eq_self_of_all (fun c hc => hns c (List.mem_reverse.1 hc))]
  exact List.reverse_reverse z

theorem filterMap_guard (p : List Char → Bool) (l : List (List Char)) :
    l.filterMap (fun z => if p z then some z.asString else none) =
      (l.filter p).map List.asString := by
  induction l with
  | nil => rfl
  | cons z l ih =>
    by_cases hp : p z = true <;>
      simp [List.filterMap_cons, List.filter_cons, hp, ih]

theorem fallback_tokens_eq_spec (s : String) :
    fallback_tokens s = spec_fallback_tokens s := by
  unfold fallback_tokens spec_fallback_tokens
  have hcong : ∀ z ∈ re_split_seps s.data,
      (if isDigitToken (stripChars z) then some (stripChars z).asString
        else none) =
      (if (!z.isEmpty && z.all isDigitChar) then some z.asString else none) := by
    intro z hz
    have hns := re_split_tokens_nonsep s.data.length s.data le_rfl z hz
    rw [stripChars_eq_self hns]
    rfl
  rw [List.filterMap_congr hcong,
    filterMap_guard (fun z => !z.isEmpty && z.all isDigitChar)]
  refine congrArg (List.map List.asString) ?_
  have hsplit : (re_split_seps s.data).filter
      (fun z => !z.isEmpty && z.all isDigitChar) =
      ((re_split_seps s.data).filter (fun z => !z.isEmpty)).filter
        (fun z => z.all isDigitChar) := by
    rw [List.filter_filter]
    refine List.filter_congr ?_
    intro a _
    rw [Bool.and_comm]
  rw [hsplit, filter_re_split_eq_chunks s.data.length s.data le_rfl]

/-- C2: on string input the candidates come from two passes: the first pass
scans for the whole-word ZIP pattern and every token it yields matches the
spec format `\d{5}(-\d{4})?`; only when the first pass yields nothing does
the fallback pass run, and its result is exactly the tokens of the text
split on runs of comma/semicolon/whitespace/newline that are purely numeric
digit strings. -/
theorem C2_candidate_extraction :
    (∀ s : String, findall_zip s ≠ [] → extract_candidates s = findall_zip s) ∧
    (∀ s : String, findall_zip s = [] →
      extract_candidates s = fallback_tokens s) ∧
    (∀ s t : String, t ∈ findall_zip s → spec_zip_format t = true) ∧
    (∀ s : String, fallback_tokens s = spec_fallback_tokens s) := by
  refine ⟨?_, ?_, ?_, fallback_tokens_eq_spec⟩
  · intro s h
    unfold extract_candidates
    rw [if_neg]
    simpa using h
  · intro s h
    unfold extract_candidates
    rw [if_pos]
    simpa using h
  · intro s t h
    exact findallZipAux_format h

/-- C2 witness: the first pass fires on `"99501 hi"` and produces a
format-conforming token; the fallback pass fires on `"no zips"`. -/
theorem C2_witness :
    findall_zip "99501 hi" ≠ [] ∧
      extract_candidates "99501 hi" = findall_zip "99501 hi" ∧
      findall_zip "no zips" = [] ∧
      extract_candidates "no zips" = fallback_tokens "no zips" ∧
      "99501" ∈ findall_zip "99501 hi" ∧ spec_zip_format "99501" = true :=
  ⟨by decide, C2_candidate_extraction.1 "99501 hi" (by decide), by decide,
    C2_candidate_extraction.2.1 "no zips" (by decide), by decide,
    C2_candidate_extraction.2.2.1 "99501 hi" "99501" (by decide)⟩

end ZipStateMapper
